import Mathlib

/-!
Verification of the attendance reconciliation program (`att.py`).

The development shallowly embeds the program's core: the workday calendar
generator (`make_workdays`, `get_next_workday`), the exception duration
splitter (`read_abnormal_info`), the grid builder and the two left joins
(`general_blank_dataframe`, `general_final_info`), the per-row flag
derivations (`general_chidao`, `general_abnormal`) and the per-employee
aggregation (`general_stat`, `df_group`).

Modelling conventions, mirroring the pandas semantics of the source:
* dates are proleptic-Gregorian `Date` records; the source compares
  timestamps, which for valid dates agrees with comparing rata-die
  ordinals (`Date.toOrdinal`); `dayofweek` is 0 for Monday, as in pandas;
* nullable values (`NaN` / `NaT`) are `Option`; pandas `NaT == x` is
  `False` for every `x` including `NaT` itself (`tsEq`), while
  `drop_duplicates` treats missing values in the same position as equal,
  which `Option` equality gives;
* the process-wide configuration lists `conf.WORKDAYS` / `conf.HOLIDAYS`
  are passed as explicit `List Date` parameters (the source holds them as
  module globals and compares `strftime` renderings, an injective encoding
  of the same data);
* float durations are embedded as `ℚ`; `NaN > 8` is `False` in the source,
  matching the `Option` test `time_gt8`;
* file discovery, Excel parsing and styling are I/O plumbing outside the
  core; the readers' outputs are taken as already-canonical record lists.
-/

namespace Att

/-- Calendar date (proleptic Gregorian), the date part of a pandas Timestamp. -/
structure Date where
  year : Nat
  month : Nat
  day : Nat
deriving DecidableEq, Repr

/-- Gregorian leap-year rule. -/
def isLeap (y : Nat) : Bool :=
  (y % 4 == 0 && y % 100 != 0) || (y % 400 == 0)

/-- Number of days in a month (`pd.Period(...).daysinmonth`). -/
def daysInMonth (y m : Nat) : Nat :=
  if m = 2 then (if isLeap y then 29 else 28)
  else if m = 4 ∨ m = 6 ∨ m = 9 ∨ m = 11 then 30
  else 31

/-- Days of year `y` that precede month `m` (table form; `m` is 1-based). -/
def daysBeforeMonth (y m : Nat) : Nat :=
  let feb : Nat := if isLeap y then 29 else 28
  if m ≤ 1 then 0
  else if m = 2 then 31
  else if m = 3 then 31 + feb
  else if m = 4 then 62 + feb
  else if m = 5 then 92 + feb
  else if m = 6 then 123 + feb
  else if m = 7 then 153 + feb
  else if m = 8 then 184 + feb
  else if m = 9 then 215 + feb
  else if m = 10 then 245 + feb
  else if m = 11 then 276 + feb
  else 306 + feb

/-- Days strictly before January 1 of year `y` (rata die of Jan 1 minus one). -/
def daysBeforeYear (y : Nat) : Nat :=
  365 * (y - 1) + (y - 1) / 4 + (y - 1) / 400 - (y - 1) / 100

/-- Rata-die ordinal of a date; 0001-01-01 has ordinal 1. -/
def Date.toOrdinal (d : Date) : Nat :=
  daysBeforeYear d.year + daysBeforeMonth d.year d.month + d.day

/-- Day of week, pandas convention: Monday = 0 … Sunday = 6. -/
def Date.dayofweek (d : Date) : Nat :=
  (d.toOrdinal + 6) % 7

/-- A structurally well-formed calendar date. -/
def Date.Valid (d : Date) : Prop :=
  1 ≤ d.year ∧ 1 ≤ d.month ∧ d.month ≤ 12 ∧ 1 ≤ d.day ∧ d.day ≤ daysInMonth d.year d.month

instance (d : Date) : Decidable d.Valid := by
  unfold Date.Valid; infer_instance

/-- The calendar successor of a date (`+ timedelta(days=1)`). -/
def Date.nextDay (d : Date) : Date :=
  if d.day < daysInMonth d.year d.month then ⟨d.year, d.month, d.day + 1⟩
  else if d.month < 12 then ⟨d.year, d.month + 1, 1⟩
  else ⟨d.year + 1, 1, 1⟩

theorem daysInMonth_pos (y m : Nat) : 1 ≤ daysInMonth y m := by
  unfold daysInMonth; split_ifs <;> omega

theorem Date.nextDay_valid {d : Date} (h : d.Valid) : d.nextDay.Valid := by
  have hp1 := daysInMonth_pos d.year (d.month + 1)
  have hp2 := daysInMonth_pos (d.year + 1) 1
  unfold Date.Valid at h ⊢
  unfold Date.nextDay
  split_ifs with hd hm <;> simp only [] <;> omega

theorem daysBeforeMonth_succ (y : Nat) {m : Nat} (h1 : 1 ≤ m) (h2 : m ≤ 11) :
    daysBeforeMonth y (m + 1) = daysBeforeMonth y m + daysInMonth y m := by
  interval_cases m <;> simp [daysBeforeMonth, daysInMonth] <;> split_ifs <;> omega

set_option maxHeartbeats 1000000 in
theorem daysBeforeYear_succ (y : Nat) (h : 1 ≤ y) :
    daysBeforeYear (y + 1) = daysBeforeYear y + 337 + (if isLeap y then 29 else 28) := by
  unfold daysBeforeYear isLeap
  split_ifs with hl
  · simp only [Bool.or_eq_true, Bool.and_eq_true, beq_iff_eq, bne_iff_ne, ne_eq,
      decide_eq_true_eq] at hl
    omega
  · simp only [Bool.or_eq_true, Bool.and_eq_true, beq_iff_eq, bne_iff_ne, ne_eq,
      decide_eq_true_eq, not_or, not_and] at hl
    omega

theorem Date.toOrdinal_nextDay {d : Date} (h : d.Valid) :
    d.nextDay.toOrdinal = d.toOrdinal + 1 := by
  obtain ⟨h1, h2, h3, h4, h5⟩ := h
  unfold Date.nextDay
  split_ifs with hd hm
  · simp only [Date.toOrdinal]; omega
  · have := daysBeforeMonth_succ d.year (m := d.month) h2 (by omega)
    simp only [Date.toOrdinal]
    omega
  · have hm12 : d.month = 12 := by omega
    have hy := daysBeforeYear_succ d.year h1
    have hdim : daysInMonth d.year 12 = 31 := by norm_num [daysInMonth]
    have hdbm : daysBeforeMonth d.year 12 = 306 + (if isLeap d.year then 29 else 28) := by
      norm_num [daysBeforeMonth]
    have hz : daysBeforeMonth (d.year + 1) 1 = 0 := by norm_num [daysBeforeMonth]
    simp only [Date.toOrdinal, hm12] at *
    split_ifs at hy hdbm <;> omega

/-- A pandas timestamp: a date plus a time of day. -/
structure Timestamp where
  date : Date
  hour : Nat
  minute : Nat
  second : Nat
deriving DecidableEq, Repr

/-- Two-digit zero padding, as in `strftime`. -/
def pad2 (n : Nat) : String :=
  if n < 10 then "0" ++ toString n else toString n

/-- `strftime("%m/%d")` of a date. -/
def fmt_md (d : Date) : String :=
  pad2 d.month ++ "/" ++ pad2 d.day

/-- `strftime("%m/%d-%H:%M")` of a timestamp. -/
def fmt_md_hm (t : Timestamp) : String :=
  fmt_md t.date ++ "-" ++ pad2 t.hour ++ ":" ++ pad2 t.minute

/-- `make_workdays`: the workdays of a month. A day is skipped when it is
not a configured extra workday and is a weekend day or a configured
holiday; a day past `max_date` is also skipped. -/
def make_workdays (WORKDAYS HOLIDAYS : List Date) (year month : Nat)
    (max_date : Option Date) : List Date :=
  (List.range (daysInMonth year month)).filterMap (fun i =>
    let d : Date := ⟨year, month, i + 1⟩
    if (d ∉ WORKDAYS) ∧ (5 ≤ d.dayofweek ∨ d ∈ HOLIDAYS) then none
    else if max_date.any (fun mx => decide (mx.toOrdinal < d.toOrdinal)) then none
    else some d)

/-- The inner `while` loop of `get_next_workday`: advance one day at a
time until the day of week is below 5. For a valid date the loop exits
within three iterations, so a fuel of 7 is provably sufficient. -/
def next_workday_go : Nat → Date → Date
  | 0, c => c
  | n + 1, c =>
    let c2 := c.nextDay
    if c2.dayofweek < 5 then c2 else next_workday_go n c2

/-- `next_workday` (inner helper of `get_next_workday`). -/
def next_workday (date : Date) : Date := next_workday_go 7 date

/-- `get_next_workday`: advance `days` plain weekday (Mon-Fri) steps,
ignoring the holiday/extra-workday configuration. -/
def get_next_workday (currdate : Date) : Nat → Date
  | 0 => currdate
  | n + 1 => next_workday (get_next_workday currdate n)

theorem next_workday_spec {d : Date} (h : d.Valid) :
    (next_workday d).Valid ∧ (next_workday d).dayofweek < 5 ∧
      d.toOrdinal < (next_workday d).toOrdinal ∧
      (∀ k, d.toOrdinal < k → k < (next_workday d).toOrdinal → 5 ≤ (k + 6) % 7) := by
  have h1v : d.nextDay.Valid := Date.nextDay_valid h
  have h1o : d.nextDay.toOrdinal = d.toOrdinal + 1 := Date.toOrdinal_nextDay h
  have h2v : d.nextDay.nextDay.Valid := Date.nextDay_valid h1v
  have h2o : d.nextDay.nextDay.toOrdinal = d.toOrdinal + 2 := by
    rw [Date.toOrdinal_nextDay h1v, h1o]
  have h3v : d.nextDay.nextDay.nextDay.Valid := Date.nextDay_valid h2v
  have h3o : d.nextDay.nextDay.nextDay.toOrdinal = d.toOrdinal + 3 := by
    rw [Date.toOrdinal_nextDay h2v, h2o]
  unfold next_workday next_workday_go
  by_cases c1 : d.nextDay.dayofweek < 5
  · rw [if_pos c1]
    refine ⟨h1v, c1, by omega, fun k hk1 hk2 => by omega⟩
  · rw [if_neg c1]
    unfold next_workday_go
    by_cases c2 : d.nextDay.nextDay.dayofweek < 5
    · rw [if_pos c2]
      refine ⟨h2v, c2, by omega, fun k hk1 hk2 => ?_⟩
      have hk : k = d.toOrdinal + 1 := by omega
      have := c1
      unfold Date.dayofweek at this
      omega
    · rw [if_neg c2]
      unfold next_workday_go
      have c3 : d.nextDay.nextDay.nextDay.dayofweek < 5 := by
        unfold Date.dayofweek at c1 c2 ⊢
        omega
      rw [if_pos c3]
      refine ⟨h3v, c3, by omega, fun k hk1 hk2 => ?_⟩
      unfold Date.dayofweek at c1 c2
      omega

theorem get_next_workday_valid {d : Date} (h : d.Valid) (n : Nat) :
    (get_next_workday d n).Valid := by
  induction n with
  | zero => exact h
  | succ n ih => exact (next_workday_spec ih).1

theorem get_next_workday_weekday {d : Date} (h : d.Valid) (n : Nat) :
    (get_next_workday d (n + 1)).dayofweek < 5 :=
  (next_workday_spec (get_next_workday_valid h n)).2.1

theorem get_next_workday_mono {d : Date} (h : d.Valid) (n : Nat) :
    (get_next_workday d n).toOrdinal < (get_next_workday d (n + 1)).toOrdinal :=
  (next_workday_spec (get_next_workday_valid h n)).2.2.1

theorem get_next_workday_between {d : Date} (h : d.Valid) (n : Nat) :
    ∀ k, (get_next_workday d n).toOrdinal < k →
      k < (get_next_workday d (n + 1)).toOrdinal → 5 ≤ (k + 6) % 7 :=
  (next_workday_spec (get_next_workday_valid h n)).2.2.2

theorem get_next_workday_strictMono {d : Date} (h : d.Valid) {n m : Nat} (hnm : n < m) :
    (get_next_workday d n).toOrdinal < (get_next_workday d m).toOrdinal := by
  induction hnm with
  | refl => exact get_next_workday_mono h n
  | step h2 ih => exact lt_trans ih (get_next_workday_mono h _)

theorem make_workdays_mem (W H : List Date) (y m : Nat) (md : Option Date) (d : Date) :
    d ∈ make_workdays W H y m md ↔
      d.year = y ∧ d.month = m ∧ 1 ≤ d.day ∧ d.day ≤ daysInMonth y m ∧
      (d ∈ W ∨ (d.dayofweek < 5 ∧ d ∉ H)) ∧
      (∀ mx, md = some mx → d.toOrdinal ≤ mx.toOrdinal) := by
  unfold make_workdays
  rw [List.mem_filterMap]
  constructor
  · rintro ⟨i, hi, hf⟩
    rw [List.mem_range] at hi
    simp only [] at hf
    by_cases hc1 : ((⟨y, m, i + 1⟩ : Date) ∉ W ∧
        (5 ≤ (⟨y, m, i + 1⟩ : Date).dayofweek ∨ (⟨y, m, i + 1⟩ : Date) ∈ H))
    · rw [if_pos hc1] at hf; cases hf
    rw [if_neg hc1] at hf
    by_cases hc2 : Option.any
        (fun mx => decide (mx.toOrdinal < (⟨y, m, i + 1⟩ : Date).toOrdinal)) md = true
    · rw [if_pos hc2] at hf; cases hf
    rw [if_neg hc2] at hf
    have hd : (⟨y, m, i + 1⟩ : Date) = d := Option.some.inj hf
    subst hd
    refine ⟨rfl, rfl, by simp, by simp; omega, ?_, ?_⟩
    · by_cases hw : (⟨y, m, i + 1⟩ : Date) ∈ W
      · exact Or.inl hw
      · right
        rw [not_and_or, not_not, not_or] at hc1
        rcases hc1 with h | h
        · exact absurd h hw
        · exact ⟨by omega, h.2⟩
    · intro mx hmx
      subst hmx
      simp only [Option.any_some, decide_eq_true_eq] at hc2
      omega
  · rintro ⟨hy, hm, hd1, hd2, hcond, hmd⟩
    obtain ⟨dy, dm, dd⟩ := d
    simp only [] at hy hm hd1 hd2
    subst hy; subst hm
    refine ⟨dd - 1, by rw [List.mem_range]; omega, ?_⟩
    have heq : dd - 1 + 1 = dd := by omega
    simp only [heq]
    rw [if_neg, if_neg]
    · cases md with
      | none => simp
      | some mx =>
        have := hmd mx rfl
        simp only [Option.any_some, decide_eq_true_eq]
        omega
    · rw [not_and_or]
      rcases hcond with hw | ⟨hdow, hh⟩
      · exact Or.inl (not_not_intro hw)
      · exact Or.inr (by rw [not_or]; exact ⟨by omega, hh⟩)

/-- C4: `make_workdays` returns, in ascending order with each date at most
once, exactly the dates of the month that are configured extra workdays or
are Monday-Friday non-holidays, truncated inclusively at `maxDate`. -/
theorem C4_make_workdays (W H : List Date) (y m : Nat) (md : Option Date) :
    (∀ d : Date, d ∈ make_workdays W H y m md ↔
      d.year = y ∧ d.month = m ∧ 1 ≤ d.day ∧ d.day ≤ daysInMonth y m ∧
      (d ∈ W ∨ (d.dayofweek < 5 ∧ d ∉ H)) ∧
      (∀ mx, md = some mx → d.toOrdinal ≤ mx.toOrdinal)) ∧
    (make_workdays W H y m md).Pairwise (fun a b => a.toOrdinal < b.toOrdinal) := by
  refine ⟨make_workdays_mem W H y m md, ?_⟩
  unfold make_workdays
  rw [List.pairwise_filterMap]
  apply List.Pairwise.imp ?_ (List.pairwise_lt_range (daysInMonth y m))
  intro i j hij b hb b' hb'
  simp only [Option.mem_def] at hb hb'
  have h1 : b = ⟨y, m, i + 1⟩ := by
    split_ifs at hb <;>
      first
      | exact Option.noConfusion hb
      | exact (Option.some.inj hb).symm
  have h2 : b' = ⟨y, m, j + 1⟩ := by
    split_ifs at hb' <;>
      first
      | exact Option.noConfusion hb'
      | exact (Option.some.inj hb').symm
  subst h1; subst h2
  simp only [Date.toOrdinal, Date.day]
  omega

/-- C4 witness: concrete evaluation of the theorem. December 2019 with no
configured exceptions, truncated at 2019-12-04 (a Wednesday), contains
2019-12-02 (Monday); truncation keeps the max date itself. -/
theorem C4_make_workdays_witness :
    (⟨2019, 12, 2⟩ : Date) ∈ make_workdays [] [] 2019 12 (some ⟨2019, 12, 4⟩) :=
  ((C4_make_workdays [] [] 2019 12 (some ⟨2019, 12, 4⟩)).1 ⟨2019, 12, 2⟩).mpr
    (by refine ⟨rfl, rfl, by decide, by decide, ?_, ?_⟩
        · right; exact ⟨by decide, by simp⟩
        · intro mx hmx
          cases Option.some.inj hmx
          decide)

/-- A canonical exception record (anomaly or leave) after normalization:
`(name, date, type, time)`, duration in hours, `NaN` as `none`. -/
structure ExRec where
  name : String
  date : Date
  type : String
  time : Option ℚ
deriving DecidableEq, Repr

/-- Worker for `dropDup` with the already-seen rows accumulated, so that
the definition is structurally recursive and computable by the kernel. -/
def dropDupGo {α : Type} [DecidableEq α] (seen : List α) : List α → List α
  | [] => []
  | x :: xs => if x ∈ seen then dropDupGo seen xs else x :: dropDupGo (x :: seen) xs

/-- `DataFrame.drop_duplicates()`: keep the first occurrence of each row,
in order. pandas treats missing values in the same column as equal here,
as `Option` equality does. -/
def dropDup {α : Type} [DecidableEq α] (l : List α) : List α := dropDupGo [] l

/-- The row filter `df['time'] > 8` (False on `NaN`). -/
def time_gt8 (r : ExRec) : Bool :=
  match r.time with
  | some t => decide ((8 : ℚ) < t)
  | none => false

/-- The rows appended for one record with `time > 8`: for
`j ∈ [0, ceil(time/8) - 1)` a copy dated `get_next_workday(date, j+1)`
with `time` set to missing. -/
def extra_records (r : ExRec) (t : ℚ) : List ExRec :=
  (List.range ((⌈t / 8⌉).toNat - 1)).map
    (fun j => { r with date := get_next_workday r.date (j + 1), time := none })

/-- The extra rows contributed by a record (empty when `time` missing). -/
def extras_of (r : ExRec) : List ExRec :=
  match r.time with
  | some t => extra_records r t
  | none => []

/-- The append loop of `read_abnormal_info`: the original frame followed by
the expansion rows of every record with `time > 8`, in frame order. -/
def split_expand (df : List ExRec) : List ExRec :=
  df ++ (df.filter time_gt8).flatMap extras_of

/-- Core of `read_abnormal_info` (after Excel parsing): expand multi-day
records, then `drop_duplicates`. -/
def read_abnormal_info (df : List ExRec) : List ExRec :=
  dropDup (split_expand df)

theorem mem_dropDupGo {α : Type} [DecidableEq α] (a : α) :
    ∀ (l seen : List α), a ∈ dropDupGo seen l ↔ a ∈ l ∧ a ∉ seen := by
  intro l
  induction l with
  | nil => intro seen; simp [dropDupGo]
  | cons x xs ih =>
    intro seen
    unfold dropDupGo
    split_ifs with hx
    · rw [ih seen]
      constructor
      · rintro ⟨h1, h2⟩; exact ⟨List.mem_cons_of_mem x h1, h2⟩
      · rintro ⟨h1, h2⟩
        rcases List.mem_cons.mp h1 with rfl | h1
        · exact absurd hx h2
        · exact ⟨h1, h2⟩
    · rw [List.mem_cons, ih (x :: seen)]
      constructor
      · rintro (rfl | ⟨h1, h2⟩)
        · exact ⟨List.mem_cons_self a xs, hx⟩
        · rw [List.mem_cons] at h2
          push_neg at h2
          exact ⟨List.mem_cons_of_mem x h1, h2.2⟩
      · rintro ⟨h1, h2⟩
        rcases List.mem_cons.mp h1 with rfl | h1
        · exact Or.inl rfl
        · by_cases hax : a = x
          · exact Or.inl hax
          · exact Or.inr ⟨h1, by rw [List.mem_cons]; push_neg; exact ⟨hax, h2⟩⟩

theorem mem_dropDup {α : Type} [DecidableEq α] (a : α) (l : List α) :
    a ∈ dropDup l ↔ a ∈ l := by
  rw [dropDup, mem_dropDupGo]
  simp

theorem dropDupGo_nil_of_subset {α : Type} [DecidableEq α] :
    ∀ (l seen : List α), (∀ a ∈ l, a ∈ seen) → dropDupGo seen l = [] := by
  intro l
  induction l with
  | nil => intro seen _; rfl
  | cons x xs ih =>
    intro seen h
    unfold dropDupGo
    rw [if_pos (h x (List.mem_cons_self x xs))]
    exact ih seen (fun a ha => h a (List.mem_cons_of_mem x ha))

theorem dropDupGo_append_subset {α : Type} [DecidableEq α] :
    ∀ (l1 : List α) (seen l2 : List α), (∀ a ∈ l2, a ∈ seen ∨ a ∈ l1) →
      dropDupGo seen (l1 ++ l2) = dropDupGo seen l1 := by
  intro l1
  induction l1 with
  | nil =>
    intro seen l2 h
    simp only [List.nil_append]
    rw [dropDupGo_nil_of_subset l2 seen (fun a ha => (h a ha).resolve_right (by simp))]
    rfl
  | cons x xs ih =>
    intro seen l2 h
    simp only [List.cons_append]
    unfold dropDupGo
    split_ifs with hx
    · exact ih seen l2 (fun a ha => by
        rcases h a ha with hs | hm
        · exact Or.inl hs
        · rcases List.mem_cons.mp hm with rfl | hm
          · exact Or.inl hx
          · exact Or.inr hm)
    · rw [ih (x :: seen) l2 (fun a ha => by
        rcases h a ha with hs | hm
        · exact Or.inl (List.mem_cons_of_mem x hs)
        · rcases List.mem_cons.mp hm with rfl | hm
          · exact Or.inl (List.mem_cons_self a seen)
          · exact Or.inr hm)]

theorem dropDupGo_nodup {α : Type} [DecidableEq α] :
    ∀ (l seen : List α), (dropDupGo seen l).Nodup := by
  intro l
  induction l with
  | nil => intro seen; simp [dropDupGo]
  | cons x xs ih =>
    intro seen
    unfold dropDupGo
    split_ifs with hx
    · exact ih seen
    · refine List.nodup_cons.mpr ⟨?_, ih (x :: seen)⟩
      intro hmem
      exact ((mem_dropDupGo x xs (x :: seen)).mp hmem).2 (List.mem_cons_self x seen)

theorem dropDupGo_of_nodup {α : Type} [DecidableEq α] :
    ∀ (l seen : List α), l.Nodup → (∀ a ∈ l, a ∉ seen) → dropDupGo seen l = l := by
  intro l
  induction l with
  | nil => intro seen _ _; rfl
  | cons x xs ih =>
    intro seen hnd hdisj
    unfold dropDupGo
    rw [if_neg (hdisj x (List.mem_cons_self x xs))]
    rw [ih (x :: seen) (List.nodup_cons.mp hnd).2 (fun a ha => by
      rw [List.mem_cons]
      push_neg
      exact ⟨fun hax => (List.nodup_cons.mp hnd).1 (hax ▸ ha),
             hdisj a (List.mem_cons_of_mem x ha)⟩)]

theorem dropDup_of_nodup {α : Type} [DecidableEq α] (l : List α) (h : l.Nodup) :
    dropDup l = l :=
  dropDupGo_of_nodup l [] h (by simp)

theorem dropDup_idem {α : Type} [DecidableEq α] (l : List α) :
    dropDup (dropDup l) = dropDup l :=
  dropDup_of_nodup _ (dropDupGo_nodup l [])

theorem dropDup_append_subset {α : Type} [DecidableEq α] (l1 l2 : List α)
    (h : ∀ a ∈ l2, a ∈ l1) : dropDup (l1 ++ l2) = dropDup l1 :=
  dropDupGo_append_subset l1 [] l2 (fun a ha => Or.inr (h a ha))

theorem dropDupGo_filter {α : Type} [DecidableEq α] (p : α → Bool) :
    ∀ (l seen seen' : List α), (∀ a, a ∈ seen' ↔ a ∈ seen ∧ p a) →
      (dropDupGo seen l).filter p = dropDupGo seen' (l.filter p) := by
  intro l
  induction l with
  | nil => intro seen seen' _; rfl
  | cons x xs ih =>
    intro seen seen' hss
    by_cases hp : p x
    · rw [List.filter_cons_of_pos hp]
      simp only [dropDupGo]
      by_cases hx : x ∈ seen
      · rw [if_pos hx, if_pos ((hss x).mpr ⟨hx, hp⟩)]
        exact ih seen seen' hss
      · rw [if_neg hx, if_neg (fun hmem => hx ((hss x).mp hmem).1)]
        rw [List.filter_cons_of_pos hp]
        rw [ih (x :: seen) (x :: seen') (fun a => by
          rw [List.mem_cons, List.mem_cons, hss a]
          constructor
          · rintro (rfl | ⟨h1, h2⟩)
            · exact ⟨Or.inl rfl, hp⟩
            · exact ⟨Or.inr h1, h2⟩
          · rintro ⟨rfl | h1, h2⟩
            · exact Or.inl rfl
            · exact Or.inr ⟨h1, h2⟩)]
    · rw [List.filter_cons_of_neg (by simpa using hp)]
      simp only [dropDupGo]
      by_cases hx : x ∈ seen
      · rw [if_pos hx]
        exact ih seen seen' hss
      · rw [if_neg hx, List.filter_cons_of_neg (by simpa using hp)]
        exact ih (x :: seen) seen' (fun a => by
          rw [hss a, List.mem_cons]
          constructor
          · rintro ⟨h1, h2⟩; exact ⟨Or.inr h1, h2⟩
          · rintro ⟨rfl | h1, h2⟩
            · exact absurd h2 (by simpa using hp)
            · exact ⟨h1, h2⟩)

theorem dropDup_filter {α : Type} [DecidableEq α] (p : α → Bool) (l : List α) :
    (dropDup l).filter p = dropDup (l.filter p) :=
  dropDupGo_filter p l [] [] (by simp)

theorem extras_of_time_none {a r : ExRec} (h : a ∈ extras_of r) : a.time = none := by
  unfold extras_of at h
  cases hrt : r.time with
  | none => rw [hrt] at h; cases h
  | some t =>
    rw [hrt] at h
    unfold extra_records at h
    obtain ⟨j, _, rfl⟩ := List.mem_map.mp h
    rfl

theorem split_filter_extras (df : List ExRec) :
    ((df.filter time_gt8).flatMap extras_of).filter time_gt8 = [] := by
  rw [List.filter_eq_nil_iff]
  intro a ha
  obtain ⟨r, _, har⟩ := List.mem_flatMap.mp ha
  have hnone := extras_of_time_none har
  simp [time_gt8, hnone]

theorem extra_records_nodup {r : ExRec} (hv : r.date.Valid) (t : ℚ) :
    (extra_records r t).Nodup := by
  unfold extra_records
  refine List.Pairwise.map _ ?_
    ((List.pairwise_lt_range _).imp (fun hij => hij))
  intro i j hij heq
  have hd := congrArg ExRec.date heq
  simp only [] at hd
  have := get_next_workday_strictMono hv (n := i + 1) (m := j + 1) (by omega)
  rw [hd] at this
  omega

theorem read_abnormal_single_big (r : ExRec) (t : ℚ) (hv : r.date.Valid)
    (hrt : r.time = some t) (hgt : 8 < t) :
    read_abnormal_info [r] = r :: extra_records r t := by
  have hbig : time_gt8 r = true := by
    unfold time_gt8
    rw [hrt]
    simpa using hgt
  have hsplit : split_expand [r] = r :: extra_records r t := by
    unfold split_expand
    rw [List.filter_cons_of_pos hbig, List.filter_nil]
    show [r] ++ (extras_of r ++ []) = r :: extra_records r t
    unfold extras_of
    rw [hrt, List.append_nil]
    rfl
  unfold read_abnormal_info
  rw [hsplit]
  rw [dropDup_of_nodup]
  refine List.nodup_cons.mpr ⟨?_, extra_records_nodup hv t⟩
  intro hmem
  have hn : r.time = none := extras_of_time_none (r := r) (by
    unfold extras_of; rw [hrt]; exact hmem)
  rw [hrt] at hn
  cases hn

theorem read_abnormal_single_small (r : ExRec) (hle : ∀ t', r.time = some t' → t' ≤ 8) :
    read_abnormal_info [r] = [r] := by
  have hsmall : time_gt8 r = false := by
    unfold time_gt8
    cases hrt : r.time with
    | none => rfl
    | some t' =>
      have := hle t' hrt
      simpa using by linarith
  have hsplit : split_expand [r] = [r] := by
    unfold split_expand
    rw [List.filter_cons_of_neg (by rw [hsmall]; simp), List.filter_nil]
    rfl
  unfold read_abnormal_info
  rw [hsplit]
  exact dropDup_of_nodup [r] (List.nodup_singleton r)

theorem ceil_seventeen_div_eight : (⌈(17 : ℚ) / 8⌉).toNat - 1 = 2 := by
  have h3 : ⌈(17 : ℚ) / 8⌉ = 3 := by
    rw [Int.ceil_eq_iff]
    constructor <;> norm_num
  rw [h3]
  rfl

/-- C5: a record with `durationHours > 8` is replaced by `ceil(t/8)`
records: the original unchanged, plus `ceil(t/8) - 1` copies dated at the
1st, 2nd, ... following Mon-Fri weekday after the original date (plain
weekday stepping, no holiday configuration involved: the steps land on
weekdays, are strictly increasing, and skip only weekend days) carrying
the same name and type but a missing duration; records with duration at
most 8 are left unchanged. -/
theorem C5_duration_splitter (r : ExRec) (t : ℚ) (hv : r.date.Valid) :
    (r.time = some t → 8 < t →
      read_abnormal_info [r] =
        r :: (List.range ((⌈t / 8⌉).toNat - 1)).map
          (fun j => { r with date := get_next_workday r.date (j + 1), time := none })) ∧
    ((∀ t', r.time = some t' → t' ≤ 8) → read_abnormal_info [r] = [r]) ∧
    (∀ j : Nat, (get_next_workday r.date (j + 1)).dayofweek < 5) ∧
    (∀ j : Nat,
      (get_next_workday r.date j).toOrdinal < (get_next_workday r.date (j + 1)).toOrdinal) ∧
    (∀ j k : Nat, (get_next_workday r.date j).toOrdinal < k →
      k < (get_next_workday r.date (j + 1)).toOrdinal → 5 ≤ (k + 6) % 7) :=
  ⟨fun hrt hgt => read_abnormal_single_big r t hv hrt hgt,
   fun hle => read_abnormal_single_small r hle,
   get_next_workday_weekday hv, get_next_workday_mono hv, get_next_workday_between hv⟩

/-- C5 witness: the theorem applied to a concrete anomaly record, a
training anomaly of 17 hours on Thursday 2019-12-12. -/
theorem C5_duration_splitter_witness :
    read_abnormal_info [⟨"王丽梅", ⟨2019, 12, 12⟩, "培训", some 17⟩] =
      (⟨"王丽梅", ⟨2019, 12, 12⟩, "培训", some 17⟩ : ExRec) ::
        (List.range ((⌈(17 : ℚ) / 8⌉).toNat - 1)).map
          (fun j => { (⟨"王丽梅", ⟨2019, 12, 12⟩, "培训", some 17⟩ : ExRec) with
            date := get_next_workday ⟨2019, 12, 12⟩ (j + 1), time := none }) :=
  (C5_duration_splitter ⟨"王丽梅", ⟨2019, 12, 12⟩, "培训", some 17⟩ 17
    (by decide)).1 rfl (by norm_num)

/-- C6: the splitter (expansion followed by exact-duplicate removal) is
idempotent, and an input record with 17 duration hours yields exactly 3
records: the original plus the two following weekdays with no duration. -/
theorem C6_splitter_idempotent :
    (∀ df : List ExRec, read_abnormal_info (read_abnormal_info df) = read_abnormal_info df) ∧
    read_abnormal_info [⟨"王丽梅", ⟨2019, 12, 12⟩, "培训", some 17⟩] =
      [⟨"王丽梅", ⟨2019, 12, 12⟩, "培训", some 17⟩,
       ⟨"王丽梅", ⟨2019, 12, 13⟩, "培训", none⟩,
       ⟨"王丽梅", ⟨2019, 12, 16⟩, "培训", none⟩] := by
  constructor
  · intro df
    have hA : (read_abnormal_info df).filter time_gt8 = dropDup (df.filter time_gt8) := by
      show (dropDup (split_expand df)).filter time_gt8 = _
      rw [dropDup_filter]
      unfold split_expand
      rw [List.filter_append, split_filter_extras, List.append_nil]
    show dropDup (split_expand (read_abnormal_info df)) = read_abnormal_info df
    unfold split_expand
    rw [hA]
    have hsub : ∀ a ∈ (dropDup (List.filter time_gt8 df)).flatMap extras_of,
        a ∈ read_abnormal_info df := by
      intro a ha
      obtain ⟨rr, hrr, har⟩ := List.mem_flatMap.mp ha
      rw [mem_dropDup] at hrr
      show a ∈ dropDup (split_expand df)
      rw [mem_dropDup]
      unfold split_expand
      refine List.mem_append.mpr (Or.inr ?_)
      exact List.mem_flatMap.mpr ⟨rr, hrr, har⟩
    rw [dropDup_append_subset _ _ hsub]
    exact dropDup_idem (split_expand df)
  · have h1 := read_abnormal_single_big ⟨"王丽梅", ⟨2019, 12, 12⟩, "培训", some 17⟩ 17
      (by decide) rfl (by norm_num)
    rw [h1]
    unfold extra_records
    rw [ceil_seventeen_div_eight]
    decide

/-- A canonical punch record `(name, date, onduty, offduty)`; the two
punch times are nullable (`NaT` as `none`). -/
structure PunchRec where
  name : String
  date : Date
  onduty : Option Timestamp
  offduty : Option Timestamp
deriving DecidableEq, Repr

/-- A row of the reconciled frame. The merge stages of the source add
columns one at a time; here unfilled columns are `none` until their stage
sets them. -/
structure FinalRow where
  name : String
  date : Date
  onduty : Option Timestamp
  offduty : Option Timestamp
  type : Option String
  time : Option ℚ
  chidao : Option String
  abn : Option String
deriving DecidableEq, Repr

def punch_key (p : PunchRec) : String × Date := (p.name, p.date)

def ex_key (e : ExRec) : String × Date := (e.name, e.date)

def row_key (r : FinalRow) : String × Date := (r.name, r.date)

/-- The base grid: every (roster name, workday) pair, name-major and
date-ascending within a name, as the nested append loop builds it. -/
def build_grid (names : List String) (days : List Date) : List (String × Date) :=
  names.flatMap (fun n => days.map (fun d => (n, d)))

/-- `general_blank_dataframe`: names are the punch frame's distinct names
in first-appearance order; days are the truncated workdays of the end
date's month. (The end-date parsing fallback is I/O plumbing; the parsed
`max_date` is a parameter here.) -/
def general_blank_dataframe (W H : List Date) (max_date : Date)
    (df_att : List PunchRec) : List (String × Date) :=
  build_grid (dropDup (df_att.map (fun p => p.name)))
    (make_workdays W H max_date.year max_date.month (some max_date))

/-- One output group of the punch left-join: the rows a single grid cell
contributes - every matching punch row in frame order, or one
`NaT`-filled row when none matches. -/
def merge_att_cell (att : List PunchRec) (g : String × Date) : List FinalRow :=
  match att.filter (fun p => decide (punch_key p = g)) with
  | [] => [⟨g.1, g.2, none, none, none, none, none, none⟩]
  | ms => ms.map (fun p => ⟨g.1, g.2, p.onduty, p.offduty, none, none, none, none⟩)

/-- `pd.merge(df_final, df_att, how='left', on=['name', 'date'])`: each
grid row in order, paired with every matching punch row in frame order,
or `NaT`-filled when no punch row matches. -/
def merge_att (grid : List (String × Date)) (att : List PunchRec) : List FinalRow :=
  grid.flatMap (merge_att_cell att)

/-- One output group of the exception left-join for a single row. -/
def merge_abn_cell (abn : List ExRec) (r : FinalRow) : List FinalRow :=
  match abn.filter (fun e => decide (ex_key e = row_key r)) with
  | [] => [r]
  | ms => ms.map (fun e => { r with type := some e.type, time := e.time })

/-- `pd.merge(df_final, df_abn, how='left', on=['name', 'date'])`. -/
def merge_abn (rows : List FinalRow) (abn : List ExRec) : List FinalRow :=
  rows.flatMap (merge_abn_cell abn)

/-- pandas `==` on two nullable timestamps: `NaT == x` is `False` for
every `x`, including `NaT` itself. -/
def tsEq : Option Timestamp → Option Timestamp → Bool
  | some a, some b => decide (a = b)
  | _, _ => false

/-- `_general_chidao`: the late/early flag of one row. On a missing punch
time the pandas comparisons `NaT.hour > 9` etc. are `False` (`nan`
comparisons), which the `none => false` branches mirror. -/
def general_chidao (row : FinalRow) : Option String :=
  if row.type.isSome then none
  else if tsEq row.onduty row.offduty then none
  else if (match row.onduty with
           | some t => decide (9 < t.hour) || (decide (t.hour = 9) && decide (0 < t.minute))
           | none => false) then
    row.onduty.map fmt_md_hm
  else if (match row.offduty with
           | some t => decide (t.hour < 18)
           | none => false) then
    row.offduty.map fmt_md_hm
  else none

/-- `_general_abnormal`: the missing-punch flag of one row. The source
tests `row.onduty is pd.NaT or row.offduty is pd.NaT` - either side
missing selects the full-day branch. -/
def general_abnormal (row : FinalRow) : Option String :=
  if row.type.isSome then none
  else if row.onduty.isNone || row.offduty.isNone then
    some (fmt_md row.date ++ "全天卡")
  else if tsEq row.onduty row.offduty then
    match row.onduty with
    | some t => if t.hour < 12 then some (fmt_md t.date ++ "下班卡")
                else some (fmt_md t.date ++ "上班卡")
    | none => none
  else none

/-- The join-and-classify pipeline of `general_final_info` on an already
built roster and workday list: grid, punch left-join, exception left-join,
then the two derived columns. -/
def reconcile (names : List String) (days : List Date)
    (att : List PunchRec) (abn : List ExRec) : List FinalRow :=
  let grid := build_grid names days
  let j1 := merge_att grid att
  let j2 := merge_abn j1 abn
  j2.map (fun r => { r with chidao := general_chidao r, abn := general_abnormal r })

/-- `general_final_info` (post-parse core): anomaly frame through the
splitter, concatenated with the leave frame, grid from the punch frame's
names and the end month's workdays, the two left joins and the derived
columns. -/
def general_final_info (W H : List Date) (max_date : Date)
    (df_att : List PunchRec) (df_abnormal df_offwork : List ExRec) : List FinalRow :=
  let df_abn := read_abnormal_info df_abnormal ++ df_offwork
  reconcile (dropDup (df_att.map (fun p => p.name)))
    (make_workdays W H max_date.year max_date.month (some max_date))
    df_att df_abn

/-- Modelled from the spec (claim C2): "later than 09:00" read as any
time strictly after nine o'clock, seconds included. -/
def strictlyAfter0900 (t : Timestamp) : Bool :=
  decide (9 < t.hour) ||
    (decide (t.hour = 9) && (decide (0 < t.minute) || decide (0 < t.second)))

/-- "Earlier than 18:00": a time of day strictly before six pm, which
holds exactly when the hour is below 18. -/
def strictlyBefore1800 (t : Timestamp) : Bool :=
  decide (t.hour < 18)

/-- The late/early derivation exactly as claim C2 words it: exception
present gives null; equal punches give null; an on-duty time strictly
after 09:00 (seconds included) gives the formatted on-duty time; an
off-duty time earlier than 18:00 gives the formatted off-duty time. -/
def claim_lateOrEarly (row : FinalRow) : Option String :=
  if row.type.isSome then none
  else if tsEq row.onduty row.offduty then none
  else if row.onduty.any strictlyAfter0900 then row.onduty.map fmt_md_hm
  else if row.offduty.any strictlyBefore1800 then row.offduty.map fmt_md_hm
  else none

/-- Claim C2 amended: lateness is tested at minute granularity (hour > 9,
or hour = 9 and minute > 0); a punch at 09:00 with only seconds past nine
is not flagged. -/
def claim_lateOrEarly_amended (row : FinalRow) : Option String :=
  if row.type.isSome then none
  else if tsEq row.onduty row.offduty then none
  else if row.onduty.any
      (fun t => decide (9 < t.hour) || (decide (t.hour = 9) && decide (0 < t.minute))) then
    row.onduty.map fmt_md_hm
  else if row.offduty.any strictlyBefore1800 then row.offduty.map fmt_md_hm
  else none

/-- The missing-punch derivation exactly as claim C3 words it: the
full-day marker fires when both punch times are absent, and only then
among the absence cases. -/
def claim_missingPunch (row : FinalRow) : Option String :=
  if row.type.isSome then none
  else if row.onduty.isNone && row.offduty.isNone then
    some (fmt_md row.date ++ "全天卡")
  else if tsEq row.onduty row.offduty then
    match row.onduty with
    | some t => if t.hour < 12 then some (fmt_md t.date ++ "下班卡")
                else some (fmt_md t.date ++ "上班卡")
    | none => none
  else none

/-- Claim C3 amended: the full-day marker fires when either punch time is
absent (the source tests `onduty is NaT or offduty is NaT`). -/
def claim_missingPunch_amended (row : FinalRow) : Option String :=
  if row.type.isSome then none
  else if row.onduty.isNone || row.offduty.isNone then
    some (fmt_md row.date ++ "全天卡")
  else if tsEq row.onduty row.offduty then
    match row.onduty with
    | some t => if t.hour < 12 then some (fmt_md t.date ++ "下班卡")
                else some (fmt_md t.date ++ "上班卡")
    | none => none
  else none

/-- C2 counterexample: on-duty 09:00:30 (strictly after 09:00 by seconds
only) and off-duty 18:30 with no exception. The claim's derivation flags
the row with the formatted on-duty time; the code's derivation leaves it
null, because the source tests only hour and minute. -/
theorem C2_counterexample :
    general_chidao ⟨"王丽梅", ⟨2019, 12, 4⟩, some ⟨⟨2019, 12, 4⟩, 9, 0, 30⟩,
        some ⟨⟨2019, 12, 4⟩, 18, 30, 0⟩, none, none, none, none⟩ = none ∧
    claim_lateOrEarly ⟨"王丽梅", ⟨2019, 12, 4⟩, some ⟨⟨2019, 12, 4⟩, 9, 0, 30⟩,
        some ⟨⟨2019, 12, 4⟩, 18, 30, 0⟩, none, none, none, none⟩ = some "12/04-09:00" := by
  constructor <;> decide

/-- C2 amended: the code's late/early flag agrees everywhere with the
claim's derivation once lateness is read at minute granularity; and the
claim's example (on-duty 09:15, off-duty 18:30, no exception) is flagged
with the formatted on-duty time. -/
theorem C2_lateOrEarly :
    (∀ row : FinalRow, general_chidao row = claim_lateOrEarly_amended row) ∧
    general_chidao ⟨"王丽梅", ⟨2019, 12, 4⟩, some ⟨⟨2019, 12, 4⟩, 9, 15, 0⟩,
        some ⟨⟨2019, 12, 4⟩, 18, 30, 0⟩, none, none, none, none⟩ = some "12/04-09:15" := by
  constructor
  · intro row
    obtain ⟨n, d, od, ofd, ty, tm, c, a⟩ := row
    cases od <;> cases ofd <;> rfl
  · decide

/-- C3 counterexample: on-duty absent but off-duty present (18:04:51),
no exception. The claim's derivation gives null (both times are not
absent, and there is no single scan); the code emits the full-day
missing-punch marker, because it tests `onduty is NaT OR offduty is
NaT`. -/
theorem C3_counterexample :
    general_abnormal ⟨"王丽梅", ⟨2019, 12, 4⟩, none,
        some ⟨⟨2019, 12, 4⟩, 18, 4, 51⟩, none, none, none, none⟩ = some "12/04全天卡" ∧
    claim_missingPunch ⟨"王丽梅", ⟨2019, 12, 4⟩, none,
        some ⟨⟨2019, 12, 4⟩, 18, 4, 51⟩, none, none, none, none⟩ = none := by
  constructor <;> decide

/-- C3 amended: the code's missing-punch flag agrees everywhere with the
claim's derivation once the full-day marker is allowed to fire when
either punch time is absent; and the claim's example (single 08:00 scan,
no exception) yields the missing-off-duty marker. -/
theorem C3_missingPunch :
    (∀ row : FinalRow, general_abnormal row = claim_missingPunch_amended row) ∧
    general_abnormal ⟨"王丽梅", ⟨2019, 12, 4⟩, some ⟨⟨2019, 12, 4⟩, 8, 0, 0⟩,
        some ⟨⟨2019, 12, 4⟩, 8, 0, 0⟩, none, none, none, none⟩ = some "12/04下班卡" := by
  constructor
  · intro row
    obtain ⟨n, d, od, ofd, ty, tm, c, a⟩ := row
    cases od <;> cases ofd <;> rfl
  · decide

/-- C9: on a row with no exception and both punch times absent, the
late/early derivation never fires (every `NaT`/`nan` comparison in the
source is `False`), and only the full-day missing-punch flag reports the
cell. -/
theorem C9_absent_punches (row : FinalRow) (h1 : row.type = none)
    (h2 : row.onduty = none) (h3 : row.offduty = none) :
    general_chidao row = none ∧
    general_abnormal row = some (fmt_md row.date ++ "全天卡") := by
  unfold general_chidao general_abnormal
  rw [h1, h2, h3]
  exact ⟨rfl, rfl⟩

/-- C9 witness: the theorem applied to a concrete empty cell. -/
theorem C9_absent_punches_witness :
    general_chidao ⟨"王丽梅", ⟨2019, 12, 16⟩, none, none, none, none, none, none⟩ = none ∧
    general_abnormal ⟨"王丽梅", ⟨2019, 12, 16⟩, none, none, none, none, none, none⟩ =
      some (fmt_md ⟨2019, 12, 16⟩ ++ "全天卡") :=
  C9_absent_punches ⟨"王丽梅", ⟨2019, 12, 16⟩, none, none, none, none, none, none⟩ rfl rfl rfl

theorem filter_key_length_le_one {α : Type} (key : α → String × Date) :
    ∀ (l : List α), (l.map key).Nodup → ∀ k : String × Date,
      (l.filter (fun a => decide (key a = k))).length ≤ 1 := by
  intro l
  induction l with
  | nil => intro _ k; simp
  | cons x xs ih =>
    intro h k
    rw [List.map_cons, List.nodup_cons] at h
    by_cases hx : key x = k
    · rw [List.filter_cons_of_pos (by simpa using hx)]
      have hnil : xs.filter (fun a => decide (key a = k)) = [] := by
        rw [List.filter_eq_nil_iff]
        intro a ha hk
        rw [decide_eq_true_eq] at hk
        exact h.1 (by rw [hx, ← hk]; exact List.mem_map_of_mem key ha)
      rw [hnil]
      simp
    · rw [List.filter_cons_of_neg (by simpa using hx)]
      exact ih h.2 k

theorem merge_att_cell_key {att : List PunchRec} {g : String × Date} :
    ∀ r ∈ merge_att_cell att g, row_key r = g := by
  intro r hr
  unfold merge_att_cell at hr
  cases hm : att.filter (fun p => decide (punch_key p = g)) with
  | nil => rw [hm] at hr; simp at hr; rw [hr]; rfl
  | cons p ps =>
    rw [hm] at hr
    simp only [List.mem_map] at hr
    obtain ⟨q, _, rfl⟩ := hr
    rfl

theorem merge_att_cell_keys (att : List PunchRec) (h : (att.map punch_key).Nodup)
    (g : String × Date) : (merge_att_cell att g).map row_key = [g] := by
  unfold merge_att_cell
  cases hm : att.filter (fun p => decide (punch_key p = g)) with
  | nil => rfl
  | cons p ps =>
    have hlen := filter_key_length_le_one punch_key att h g
    rw [hm] at hlen
    simp only [List.length_cons] at hlen
    have hps : ps = [] := List.length_eq_zero.mp (by omega)
    subst hps
    rfl

theorem merge_abn_cell_key {abn : List ExRec} {r : FinalRow} :
    ∀ r' ∈ merge_abn_cell abn r, row_key r' = row_key r := by
  intro r' hr
  unfold merge_abn_cell at hr
  cases hm : abn.filter (fun e => decide (ex_key e = row_key r)) with
  | nil => rw [hm] at hr; simp at hr; rw [hr]
  | cons e es =>
    rw [hm] at hr
    simp only [List.mem_map] at hr
    obtain ⟨q, _, rfl⟩ := hr
    rfl

theorem merge_abn_cell_keys (abn : List ExRec) (h : (abn.map ex_key).Nodup)
    (r : FinalRow) : (merge_abn_cell abn r).map row_key = [row_key r] := by
  unfold merge_abn_cell
  cases hm : abn.filter (fun e => decide (ex_key e = row_key r)) with
  | nil => rfl
  | cons e es =>
    have hlen := filter_key_length_le_one ex_key abn h (row_key r)
    rw [hm] at hlen
    simp only [List.length_cons] at hlen
    have hes : es = [] := List.length_eq_zero.mp (by omega)
    subst hes
    rfl

theorem merge_att_keys (grid : List (String × Date)) (att : List PunchRec)
    (h : (att.map punch_key).Nodup) :
    (merge_att grid att).map row_key = grid := by
  induction grid with
  | nil => rfl
  | cons g gs ih =>
    unfold merge_att
    rw [List.flatMap_cons, List.map_append]
    rw [merge_att_cell_keys att h g]
    unfold merge_att at ih
    rw [ih]
    rfl

theorem merge_abn_keys (rows : List FinalRow) (abn : List ExRec)
    (h : (abn.map ex_key).Nodup) :
    (merge_abn rows abn).map row_key = rows.map row_key := by
  induction rows with
  | nil => rfl
  | cons r rs ih =>
    unfold merge_abn
    rw [List.flatMap_cons, List.map_append]
    rw [merge_abn_cell_keys abn h r]
    unfold merge_abn at ih
    rw [ih]
    rfl

theorem reconcile_keys (names : List String) (days : List Date)
    (att : List PunchRec) (abn : List ExRec)
    (h3 : (att.map punch_key).Nodup) (h4 : (abn.map ex_key).Nodup) :
    (reconcile names days att abn).map row_key = build_grid names days := by
  unfold reconcile
  rw [List.map_map]
  show (merge_abn (merge_att (build_grid names days) att) abn).map row_key = _
  rw [merge_abn_keys _ _ h4, merge_att_keys _ _ h3]

theorem filter_eq_length_of_nodup {α : Type} [DecidableEq α] :
    ∀ (l : List α), l.Nodup → ∀ a : α,
      (l.filter (fun x => decide (x = a))).length = if a ∈ l then 1 else 0 := by
  intro l
  induction l with
  | nil => intro _ a; simp
  | cons x xs ih =>
    intro h a
    rw [List.nodup_cons] at h
    by_cases hx : x = a
    · subst hx
      rw [List.filter_cons_of_pos (by simp)]
      have hnil : xs.filter (fun y => decide (y = x)) = [] := by
        rw [List.filter_eq_nil_iff]
        intro b hb hbx
        rw [decide_eq_true_eq] at hbx
        exact h.1 (hbx ▸ hb)
      rw [hnil]
      simp
    · rw [List.filter_cons_of_neg (by simpa using hx)]
      rw [ih h.2 a]
      have hiff : a ∈ x :: xs ↔ a ∈ xs := by
        simp only [List.mem_cons]
        exact ⟨fun hc => hc.resolve_left (fun he => hx he.symm), fun hc => Or.inr hc⟩
      exact (if_congr hiff rfl rfl).symm

theorem grid_filter_length (names : List String) (days : List Date)
    (h1 : names.Nodup) (h2 : days.Nodup) (n : String) (d : Date) :
    ((build_grid names days).filter (fun g => decide (g = (n, d)))).length =
      if n ∈ names ∧ d ∈ days then 1 else 0 := by
  induction names with
  | nil => simp [build_grid]
  | cons m ms ih =>
    rw [List.nodup_cons] at h1
    unfold build_grid
    rw [List.flatMap_cons, List.filter_append, List.length_append]
    have hfirst : ((days.map (fun d' => (m, d'))).filter
        (fun g => decide (g = (n, d)))).length = if m = n ∧ d ∈ days then 1 else 0 := by
      rw [List.filter_map, List.length_map]
      by_cases hmn : m = n
      · subst hmn
        rw [List.filter_congr (fun d' _ => by
          show decide ((m, d') = (m, d)) = decide (d' = d)
          simp)]
        rw [filter_eq_length_of_nodup days h2 d]
        simp
      · rw [List.filter_congr (fun d' _ => by
          show decide ((m, d') = (n, d)) = false
          simp [hmn])]
        simp [hmn]
    unfold build_grid at ih
    rw [hfirst, ih h1.2]
    by_cases hmn : m = n
    · subst hmn
      have hms : (m ∈ ms) = False := eq_false h1.1
      by_cases hd : d ∈ days <;> simp [hd, hms]
    · have hnm : ¬n = m := fun he => hmn he.symm
      by_cases hd : d ∈ days <;> by_cases hns : n ∈ ms <;>
        simp [hd, hns, hmn, hnm, List.mem_cons]

theorem build_grid_length (names : List String) (days : List Date) :
    (build_grid names days).length = names.length * days.length := by
  induction names with
  | nil => simp [build_grid]
  | cons m ms ih =>
    unfold build_grid
    rw [List.flatMap_cons, List.length_append, List.length_map]
    unfold build_grid at ih
    rw [ih]
    simp [List.length_cons]
    ring

/-- The duplicate-key punch frame of the C1 counterexample: two punch
records with the same (name, date) key. -/
def att_dup : List PunchRec :=
  [⟨"王丽梅", ⟨2019, 12, 4⟩, some ⟨⟨2019, 12, 4⟩, 8, 20, 53⟩,
      some ⟨⟨2019, 12, 4⟩, 18, 4, 51⟩⟩,
   ⟨"王丽梅", ⟨2019, 12, 4⟩, some ⟨⟨2019, 12, 4⟩, 9, 0, 0⟩,
      some ⟨⟨2019, 12, 4⟩, 18, 0, 0⟩⟩]

/-- C1 counterexample: with two punch records on one (name, date) key the
left join fans out. The roster (the punch frame's distinct names) has one
name and there is one workday, but the reconciled table has two rows, not
`1 * 1`. -/
theorem C1_counterexample :
    (reconcile (dropDup (att_dup.map (fun p => p.name))) [⟨2019, 12, 4⟩]
        att_dup []).length ≠
      (dropDup (att_dup.map (fun p => p.name))).length *
        [(⟨2019, 12, 4⟩ : Date)].length := by
  decide

/-- C1 amended: when the punch frame and the unioned exception stream each
hold at most one record per (name, date) key, the reconciled table has
exactly `|roster| * |workdays|` rows with exactly one row per
(name, date) pair of the grid and none outside it - the two left joins
neither add nor remove grid rows. -/
theorem C1_grid_rows (names : List String) (days : List Date)
    (att : List PunchRec) (abn : List ExRec)
    (h1 : names.Nodup) (h2 : days.Nodup)
    (h3 : (att.map punch_key).Nodup) (h4 : (abn.map ex_key).Nodup) :
    (reconcile names days att abn).length = names.length * days.length ∧
    (∀ n d, ((reconcile names days att abn).filter
        (fun r => decide (row_key r = (n, d)))).length =
      if n ∈ names ∧ d ∈ days then 1 else 0) := by
  have hkeys := reconcile_keys names days att abn h3 h4
  constructor
  · have hlen := congrArg List.length hkeys
    rw [List.length_map] at hlen
    rw [hlen, build_grid_length]
  · intro n d
    have halt : (((reconcile names days att abn).map row_key).filter
        (fun k => decide (k = (n, d)))).length
        = ((reconcile names days att abn).filter
            (fun r => decide (row_key r = (n, d)))).length := by
      rw [List.filter_map, List.length_map]
      rfl
    rw [← halt, hkeys, grid_filter_length names days h1 h2 n d]

/-- C1 witness: the amended theorem applied to a duplicate-free concrete
input: one employee, the two workdays 2019-12-02 and 2019-12-03, one
punch record and one exception record. -/
theorem C1_grid_rows_witness :
    (reconcile ["王丽梅"] [⟨2019, 12, 2⟩, ⟨2019, 12, 3⟩]
        [⟨"王丽梅", ⟨2019, 12, 2⟩, some ⟨⟨2019, 12, 2⟩, 8, 20, 53⟩,
            some ⟨⟨2019, 12, 2⟩, 18, 4, 51⟩⟩]
        [⟨"王丽梅", ⟨2019, 12, 3⟩, "事假", some 8⟩]).length = 1 * 2 :=
  (C1_grid_rows ["王丽梅"] [⟨2019, 12, 2⟩, ⟨2019, 12, 3⟩]
    [⟨"王丽梅", ⟨2019, 12, 2⟩, some ⟨⟨2019, 12, 2⟩, 8, 20, 53⟩,
        some ⟨⟨2019, 12, 2⟩, 18, 4, 51⟩⟩]
    [⟨"王丽梅", ⟨2019, 12, 3⟩, "事假", some 8⟩]
    (by decide) (by decide) (by decide) (by decide)).1

theorem merge_att_key_mem {grid : List (String × Date)} {att : List PunchRec} :
    ∀ row ∈ merge_att grid att, row_key row ∈ grid := by
  intro row hrow
  obtain ⟨g, hg, hcell⟩ := List.mem_flatMap.mp hrow
  rw [merge_att_cell_key row hcell]
  exact hg

theorem merge_abn_key_mem {rows : List FinalRow} {abn : List ExRec} :
    ∀ row ∈ merge_abn rows abn, ∃ r ∈ rows, row_key row = row_key r := by
  intro row hrow
  obtain ⟨r, hr, hcell⟩ := List.mem_flatMap.mp hrow
  exact ⟨r, hr, merge_abn_cell_key row hcell⟩

theorem reconcile_key_mem {names : List String} {days : List Date}
    {att : List PunchRec} {abn : List ExRec} :
    ∀ row ∈ reconcile names days att abn, row_key row ∈ build_grid names days := by
  intro row hrow
  unfold reconcile at hrow
  simp only [List.mem_map] at hrow
  obtain ⟨r2, hr2, rfl⟩ := hrow
  show row_key r2 ∈ build_grid names days
  obtain ⟨r1, hr1, hkeq⟩ := merge_abn_key_mem r2 hr2
  rw [hkeq]
  exact merge_att_key_mem r1 hr1

theorem build_grid_fst {names : List String} {days : List Date} :
    ∀ g ∈ build_grid names days, g.1 ∈ names := by
  intro g hg
  obtain ⟨n, hn, hm⟩ := List.mem_flatMap.mp hg
  obtain ⟨d, _, rfl⟩ := List.mem_map.mp hm
  exact hn

theorem build_grid_mem {names : List String} {days : List Date} {n : String}
    (hn : n ∈ names) {d : Date} (hd : d ∈ days) :
    (n, d) ∈ build_grid names days :=
  List.mem_flatMap.mpr ⟨n, hn, List.mem_map.mpr ⟨d, hd, rfl⟩⟩

/-- C7: the grid's employee rows are exactly the punch frame's distinct
names: every name in the reconciled output appears in the punch frame; a
name appearing only in the exception sources has no grid row and no
output row; and on a nonempty workday list the grid's names are exactly
the punch frame's names. -/
theorem C7_roster (W H : List Date) (md : Date) (att : List PunchRec)
    (abn off : List ExRec) :
    (∀ row ∈ general_final_info W H md att abn off,
       row.name ∈ att.map (fun p => p.name)) ∧
    (∀ n, n ∉ att.map (fun p => p.name) →
       (∀ g ∈ general_blank_dataframe W H md att, g.1 ≠ n) ∧
       (∀ row ∈ general_final_info W H md att abn off, row.name ≠ n)) ∧
    (make_workdays W H md.year md.month (some md) ≠ [] →
       ∀ n, n ∈ (general_blank_dataframe W H md att).map (fun g => g.1) ↔
         n ∈ att.map (fun p => p.name)) := by
  have hout : ∀ row ∈ general_final_info W H md att abn off,
      row.name ∈ att.map (fun p => p.name) := by
    intro row hrow
    have hkey := reconcile_key_mem row hrow
    have hfst := build_grid_fst (row_key row) hkey
    exact (mem_dropDup row.name (att.map (fun p => p.name))).mp hfst
  refine ⟨hout, ?_, ?_⟩
  · intro n hn
    constructor
    · intro g hg he
      have hg' : g ∈ build_grid (dropDup (att.map (fun p => p.name)))
          (make_workdays W H md.year md.month (some md)) := hg
      exact hn (he ▸ (mem_dropDup g.1 (att.map (fun p => p.name))).mp
        (build_grid_fst g hg'))
    · intro row hrow he
      exact hn (he ▸ hout row hrow)
  · intro hne n
    constructor
    · intro hmem
      obtain ⟨g, hg, rfl⟩ := List.mem_map.mp hmem
      have hg' : g ∈ build_grid (dropDup (att.map (fun p => p.name)))
          (make_workdays W H md.year md.month (some md)) := hg
      exact (mem_dropDup g.1 (att.map (fun p => p.name))).mp (build_grid_fst g hg')
    · intro hmem
      obtain ⟨d, hd⟩ := List.exists_mem_of_ne_nil _ hne
      refine List.mem_map.mpr ⟨(n, d), ?_, rfl⟩
      exact build_grid_mem ((mem_dropDup n (att.map (fun p => p.name))).mpr hmem) hd

/-- C7 witness: the theorem's first conjunct on a one-punch frame - the
end-to-end scenario row of the spec, a normal 2019-12-02 working day. -/
theorem C7_roster_witness :
    (⟨"王丽梅", ⟨2019, 12, 2⟩, some ⟨⟨2019, 12, 2⟩, 8, 20, 53⟩,
        some ⟨⟨2019, 12, 2⟩, 18, 4, 51⟩, none, none, none, none⟩ : FinalRow).name ∈
      ([⟨"王丽梅", ⟨2019, 12, 2⟩, some ⟨⟨2019, 12, 2⟩, 8, 20, 53⟩,
          some ⟨⟨2019, 12, 2⟩, 18, 4, 51⟩⟩] : List PunchRec).map (fun p => p.name) :=
  (C7_roster [] [] ⟨2019, 12, 2⟩
    [⟨"王丽梅", ⟨2019, 12, 2⟩, some ⟨⟨2019, 12, 2⟩, 8, 20, 53⟩,
        some ⟨⟨2019, 12, 2⟩, 18, 4, 51⟩⟩] [] []).1
    ⟨"王丽梅", ⟨2019, 12, 2⟩, some ⟨⟨2019, 12, 2⟩, 8, 20, 53⟩,
        some ⟨⟨2019, 12, 2⟩, 18, 4, 51⟩, none, none, none, none⟩ (by decide)

theorem merge_abn_cell_offgrid {abn1 abn2 : List ExRec} {e : ExRec} {r : FinalRow}
    (h : ex_key e ≠ row_key r) :
    merge_abn_cell (abn1 ++ e :: abn2) r = merge_abn_cell (abn1 ++ abn2) r := by
  unfold merge_abn_cell
  rw [List.filter_append, List.filter_append, List.filter_cons_of_neg (by simpa using h)]

theorem merge_abn_offgrid {rows : List FinalRow} {abn1 abn2 : List ExRec} {e : ExRec}
    (h : ∀ r ∈ rows, ex_key e ≠ row_key r) :
    merge_abn rows (abn1 ++ e :: abn2) = merge_abn rows (abn1 ++ abn2) := by
  induction rows with
  | nil => rfl
  | cons r rs ih =>
    unfold merge_abn
    rw [List.flatMap_cons, List.flatMap_cons]
    rw [merge_abn_cell_offgrid (h r (List.mem_cons_self r rs))]
    unfold merge_abn at ih
    rw [ih (fun r' hr' => h r' (List.mem_cons_of_mem r hr'))]

/-- C10: an exception record whose (name, date) key matches no base-grid
cell is silently discarded by the left join - removing it from the
exception stream leaves the whole reconciled output unchanged. -/
theorem C10_offgrid (W H : List Date) (md : Date) (att : List PunchRec)
    (abn : List ExRec) (off1 off2 : List ExRec) (e : ExRec)
    (h : (e.name, e.date) ∉ general_blank_dataframe W H md att) :
    general_final_info W H md att abn (off1 ++ e :: off2) =
      general_final_info W H md att abn (off1 ++ off2) := by
  unfold general_final_info reconcile
  rw [← List.append_assoc, ← List.append_assoc]
  simp only []
  congr 1
  apply merge_abn_offgrid
  intro r hr hkey
  apply h
  have hmem := merge_att_key_mem r hr
  rw [← hkey] at hmem
  exact hmem

/-- C10 witness: a leave record for an employee absent from the punch
frame changes nothing. -/
theorem C10_offgrid_witness :
    general_final_info [] [] ⟨2019, 12, 2⟩
        [⟨"王丽梅", ⟨2019, 12, 2⟩, some ⟨⟨2019, 12, 2⟩, 8, 20, 53⟩,
            some ⟨⟨2019, 12, 2⟩, 18, 4, 51⟩⟩] []
        ([] ++ ⟨"李雷", ⟨2019, 12, 2⟩, "事假", some 8⟩ :: []) =
      general_final_info [] [] ⟨2019, 12, 2⟩
        [⟨"王丽梅", ⟨2019, 12, 2⟩, some ⟨⟨2019, 12, 2⟩, 8, 20, 53⟩,
            some ⟨⟨2019, 12, 2⟩, 18, 4, 51⟩⟩] [] ([] ++ []) :=
  C10_offgrid [] [] ⟨2019, 12, 2⟩
    [⟨"王丽梅", ⟨2019, 12, 2⟩, some ⟨⟨2019, 12, 2⟩, 8, 20, 53⟩,
        some ⟨⟨2019, 12, 2⟩, 18, 4, 51⟩⟩] [] [] []
    ⟨"李雷", ⟨2019, 12, 2⟩, "事假", some 8⟩ (by decide)

/-- One accumulation step of the `_general_stat` loop: append the row's
non-null flags (missing values are skipped by the
`not in (np.NaN, None)` tests). -/
def stat_step (acc : List String × List String) (r : FinalRow) :
    List String × List String :=
  ((match r.chidao with | some s => acc.1 ++ [s] | none => acc.1),
   (match r.abn with | some s => acc.2 ++ [s] | none => acc.2))

/-- `_general_stat` on one employee's rows: collect the non-null late/early
and missing-punch flags in row order, then join them with a line break
and a semicolon respectively. -/
def general_stat (rows : List FinalRow) : String × String :=
  let p := rows.foldl stat_step ([], [])
  (String.intercalate "\n" p.1, String.intercalate ";" p.2)

/-- Code-point lexicographic comparison of character lists; Python (and
hence the pandas groupby key sort) compares strings this way. -/
def charsLe : List Char → List Char → Bool
  | [], _ => true
  | _ :: _, [] => false
  | a :: as, b :: bs =>
    if a.val < b.val then true
    else if b.val < a.val then false
    else charsLe as bs

/-- String comparison by code points. -/
def strLe (s t : String) : Bool := charsLe s.data t.data

def insertSorted (s : String) : List String → List String
  | [] => [s]
  | x :: xs => if strLe s x then s :: x :: xs else x :: insertSorted s xs

/-- The ascending group-key order of `groupby('name')`. -/
def sortNames (l : List String) : List String :=
  l.foldr insertSorted []

/-- `df_group.groupby('name').apply(_general_stat)`: one summary record
per distinct name, keys in sorted order, each group's rows kept in frame
order. -/
def df_group (rows : List FinalRow) : List (String × String × String) :=
  (sortNames (dropDup (rows.map (fun r => r.name)))).map
    (fun n =>
      let s := general_stat (rows.filter (fun r => decide (r.name = n)))
      (n, s.1, s.2))

theorem foldl_stat_step (rows : List FinalRow) :
    ∀ acc : List String × List String,
      rows.foldl stat_step acc =
        (acc.1 ++ rows.filterMap (fun r => r.chidao),
         acc.2 ++ rows.filterMap (fun r => r.abn)) := by
  induction rows with
  | nil => intro acc; simp
  | cons r rs ih =>
    intro acc
    rw [List.foldl_cons, ih]
    unfold stat_step
    cases hc : r.chidao <;> cases ha : r.abn <;>
      simp [List.filterMap_cons, hc, ha]

theorem general_stat_eq (rows : List FinalRow) :
    general_stat rows =
      (String.intercalate "\n" (rows.filterMap (fun r => r.chidao)),
       String.intercalate ";" (rows.filterMap (fun r => r.abn))) := by
  unfold general_stat
  rw [foldl_stat_step rows ([], [])]
  rfl

theorem insertSorted_perm (s : String) :
    ∀ l : List String, List.Perm (insertSorted s l) (s :: l) := by
  intro l
  induction l with
  | nil => exact List.Perm.refl _
  | cons x xs ih =>
    unfold insertSorted
    split_ifs
    · exact List.Perm.refl _
    · exact List.Perm.trans (List.Perm.cons x ih) (List.Perm.swap s x xs)

theorem sortNames_perm : ∀ l : List String, List.Perm (sortNames l) l := by
  intro l
  induction l with
  | nil => exact List.Perm.refl _
  | cons x xs ih =>
    show List.Perm (insertSorted x (sortNames xs)) (x :: xs)
    exact List.Perm.trans (insertSorted_perm x (sortNames xs)) (List.Perm.cons x ih)

/-- C8: grouping the reconciled rows by name yields exactly one summary
record per distinct employee name (the record names are duplicate-free
and are exactly the names of the table), and each record's fields are
the line-break / semicolon joins of that employee's non-null flags in
the row order of the reconciled table. -/
theorem C8_aggregation (rows : List FinalRow) :
    ((df_group rows).map (fun e => e.1)).Nodup ∧
    (∀ n, n ∈ (df_group rows).map (fun e => e.1) ↔ n ∈ rows.map (fun r => r.name)) ∧
    (∀ e ∈ df_group rows,
      e.2.1 = String.intercalate "\n"
          ((rows.filter (fun r => decide (r.name = e.1))).filterMap (fun r => r.chidao)) ∧
      e.2.2 = String.intercalate ";"
          ((rows.filter (fun r => decide (r.name = e.1))).filterMap (fun r => r.abn))) := by
  have hfst : (df_group rows).map (fun e => e.1) =
      sortNames (dropDup (rows.map (fun r => r.name))) := by
    unfold df_group
    rw [List.map_map]
    exact List.map_id _
  refine ⟨?_, ?_, ?_⟩
  · rw [hfst]
    exact (sortNames_perm _).nodup_iff.mpr (dropDupGo_nodup _ [])
  · intro n
    rw [hfst]
    rw [(sortNames_perm _).mem_iff]
    exact mem_dropDup n (rows.map (fun r => r.name))
  · intro e he
    obtain ⟨n, _, rfl⟩ := List.mem_map.mp he
    constructor
    · show (general_stat (rows.filter (fun r => decide (r.name = n)))).1 = _
      rw [general_stat_eq]
    · show (general_stat (rows.filter (fun r => decide (r.name = n)))).2 = _
      rw [general_stat_eq]

/-- C8 witness: the theorem's per-record conjunct on a one-row table. -/
theorem C8_aggregation_witness :
    (("王丽梅", "12/02-09:01", "") : String × String × String).2.1 =
      String.intercalate "\n"
        ((([⟨"王丽梅", ⟨2019, 12, 2⟩, none, none, none, none, some "12/02-09:01",
            none⟩] : List FinalRow).filter
              (fun r => decide (r.name = (("王丽梅", "12/02-09:01", "") :
                String × String × String).1))).filterMap (fun r => r.chidao)) :=
  ((C8_aggregation [⟨"王丽梅", ⟨2019, 12, 2⟩, none, none, none, none,
      some "12/02-09:01", none⟩]).2.2 ("王丽梅", "12/02-09:01", "") (by decide)).1

end Att
